import Mathlib

/-!
Verification of the deploy orchestration logic of
`packages/create-cloudflare/src/deploy.ts` and of the mTLS certificate
name resolution exercised by the wrangler cert tests.

JavaScript values reachable by the configuration search are modelled by a
tree of mappings, sequences and leaves; JavaScript strings are modelled by
`List Char` where character-level operations (split, endsWith, regex
matching) matter, and by `String` where only whole-value equality matters.
-/

mutual
/-- A parsed configuration tree (result of `jsoncParse` / `TOML.parse`):
an arbitrarily nested mapping/sequence structure.  `null` models JSON
`null` (and `undefined`), `scalar` models strings/numbers/booleans, whose
content the searched code never inspects. -/
inductive JNode : Type where
  | null : JNode
  | scalar : String → JNode
  | arr : JList → JNode
  | obj : JFields → JNode
  deriving DecidableEq
inductive JList : Type where
  | nil : JList
  | cons : JNode → JList → JList
  deriving DecidableEq
inductive JFields : Type where
  | nil : JFields
  | cons : String → JNode → JFields → JFields
  deriving DecidableEq
end

mutual
/-- `hasBinding` from `deploy.ts` lines 178-193.  `typeof node !== "object"
|| node === null` yields false; otherwise the `for (const key of
Object.keys(node))` loop skips a key named `assets` (`continue`), returns
true on a key named `binding` or `bindings`, and otherwise returns
`hasBinding(node[key])` for the first such key.  For a sequence,
`Object.keys` are the index strings `"0", "1", ...`, so the loop body
always recurses into the first element (index strings never equal
`assets`/`binding`/`bindings`); an empty sequence falls through to
false. -/
def hasBinding : JNode → Bool
  | .null => false
  | .scalar _ => false
  | .arr l => hasBindingList l
  | .obj fs => hasBindingFields fs
def hasBindingList : JList → Bool
  | .nil => false
  | .cons x _ => hasBinding x
def hasBindingFields : JFields → Bool
  | .nil => false
  | .cons k v rest =>
    if k = "assets" then hasBindingFields rest
    else if k = "binding" ∨ k = "bindings" then true
    else hasBinding v
end

/-- Concatenation of mapping field lists, used to speak about the position
of a key among a node's keys. -/
def JFields.append : JFields → JFields → JFields
  | .nil, gs => gs
  | .cons k v fs, gs => .cons k v (fs.append gs)

/-- All keys of the field list are literally named `assets`. -/
def JFields.allAssets : JFields → Bool
  | .nil => true
  | .cons k _ fs => k = "assets" && fs.allAssets

/-- The first field of a mapping whose key is not literally `assets` — the
field at which the loop of `hasBinding` stops skipping. -/
def firstNonAssets : JFields → Option (String × JNode)
  | .nil => none
  | .cons k v rest => if k = "assets" then firstNonAssets rest else some (k, v)

/-- A key literally named `binding` or `bindings` is reachable from the
node by the first-key-only descent: at each mapping, skip the `assets`
keys, then look only at the first remaining key (a hit if it is named
`binding`/`bindings`, otherwise descend into its value); at each sequence,
descend into the first element. -/
inductive DescentFinds : JNode → Prop where
  | objHit (fs : JFields) (k : String) (v : JNode)
      (hfirst : firstNonAssets fs = some (k, v))
      (hname : k = "binding" ∨ k = "bindings") : DescentFinds (.obj fs)
  | objStep (fs : JFields) (k : String) (v : JNode)
      (hfirst : firstNonAssets fs = some (k, v))
      (hb : k ≠ "binding") (hbs : k ≠ "bindings")
      (hrec : DescentFinds v) : DescentFinds (.obj fs)
  | arrStep (x : JNode) (l : JList)
      (hrec : DescentFinds x) : DescentFinds (.arr (.cons x l))

mutual
/-- Exhaustive occurrence check: the tree contains a key literally named
`binding` or `bindings` somewhere outside every `assets` subtree.  (This
is the reference for the spec's statement that a tree whose only such key
sits inside an `assets` subtree yields false.) -/
def bindingOutsideAssets : JNode → Bool
  | .null => false
  | .scalar _ => false
  | .arr l => bindingOutsideAssetsList l
  | .obj fs => bindingOutsideAssetsFields fs
def bindingOutsideAssetsList : JList → Bool
  | .nil => false
  | .cons x l => bindingOutsideAssets x || bindingOutsideAssetsList l
def bindingOutsideAssetsFields : JFields → Bool
  | .nil => false
  | .cons k v rest =>
    if k = "assets" then bindingOutsideAssetsFields rest
    else if k = "binding" ∨ k = "bindings" then true
    else bindingOutsideAssets v || bindingOutsideAssetsFields rest
end

/-! ## Deployability gate (`deploy.ts` lines 76-91) -/

/-- `replace(/\r\n/g, "\n")` of `readWranglerConfig`: a global left-to-right
replacement of each CRLF pair by LF. -/
def crlfToLf : List Char → List Char
  | '\r' :: '\n' :: rest => '\n' :: crlfToLf rest
  | c :: rest => c :: crlfToLf rest
  | [] => []

/-- The parts of a `C3Context` consulted by `isDeployable` /
`readWranglerConfig`: the template's target platform, whether
`wrangler.json` exists, and the raw contents of the two candidate
configuration files. -/
structure ConfigEnv : Type where
  platform : String
  jsonExists : Bool
  jsonStr : List Char
  tomlStr : List Char

/-- `readWranglerConfig` from `deploy.ts` lines 84-91: prefer the
JSON/JSONC file when it exists (parsed with the external `jsoncParse`),
else parse the TOML file (external `TOML.parse`) after normalizing CRLF
line endings to LF.  The two external parsers are passed as oracles. -/
def readWranglerConfig (jsoncParse tomlParse : List Char → JNode)
    (env : ConfigEnv) : JNode :=
  if env.jsonExists then jsoncParse env.jsonStr
  else tomlParse (crlfToLf env.tomlStr)

/-- `isDeployable` from `deploy.ts` lines 76-82: a `pages` platform is
always deployable; otherwise parse the wrangler configuration and require
the absence of a binding. -/
def isDeployable (jsoncParse tomlParse : List Char → JNode)
    (env : ConfigEnv) : Bool :=
  if env.platform = "pages" then true
  else !hasBinding (readWranglerConfig jsoncParse tomlParse env)

/-! ## Deploy runner output extraction (`deploy.ts` lines 134-161) -/

/-- The fields of a parsed output record that the extraction reads:
`entry.type`, `entry.targets` and `entry.url`; each is `none` when the
JSON value lacks the property (JavaScript `undefined`). -/
structure OutputRecord : Type where
  type : Option String
  targets : Option (List String)
  url : Option String
  deriving DecidableEq

/-- A line of the captured output file after `split("\n")`:
`blank` is an empty line (removed by `filter(Boolean)`), `bad` is a line
on which `JSON.parse` throws, and `ok e` is a line parsing to the JSON
value `e`, where `e = none` models JSON `null` (whose property access
throws a TypeError) and `e = some r` models any other JSON value, read
through the `OutputRecord` fields. -/
inductive LineV : Type where
  | blank : LineV
  | bad : LineV
  | ok : Option OutputRecord → LineV

/-- `contents.split("\n").filter(Boolean).map((entry) => JSON.parse(entry))`:
blank lines are dropped and every remaining line is parsed; a single
failing line throws out of the whole `map` (modelled by `Except.error`). -/
def parseEntries : List LineV → Except Unit (List (Option OutputRecord))
  | [] => .ok []
  | .blank :: rest => parseEntries rest
  | .bad :: _ => .error ()
  | .ok e :: rest => (parseEntries rest).map (e :: ·)

/-- `entries.find((entry) => entry.type === t)`: scans in order; reading
`.type` of a `null` entry throws a TypeError (`Except.error`); `some none`
means no matching record (JavaScript `undefined`). -/
def findByType (t : String) : List (Option OutputRecord) →
    Except Unit (Option OutputRecord)
  | [] => .ok none
  | none :: _ => .error ()
  | some r :: rest =>
    if r.type = some t then .ok (some r) else findByType t rest

/-- The raw URL candidate of `deploy.ts` lines 141-143:
`entries.find(deploy)?.targets?.[0] ?? entries.find(pages-deploy)?.url`.
The right operand of `??` is evaluated only when the left is nullish. -/
def extractRaw (entries : List (Option OutputRecord)) :
    Except Unit (Option String) := do
  let d ← findByType "deploy" entries
  match d.bind (fun r => r.targets) |>.bind List.head? with
  | some u => pure (some u)
  | none =>
    let p ← findByType "pages-deploy" entries
    pure (p.bind (fun r => r.url))

/-- The extraction rule in the words of the specification: take the first
element of the targets list of the first record whose type is `deploy`,
else the url field of the first record whose type is `pages-deploy`. -/
def claimExtract (records : List OutputRecord) : Option String :=
  match ((records.find? (fun r => r.type = some "deploy")).bind
      (fun r => r.targets)).bind List.head? with
  | some u => some u
  | none =>
    (records.find? (fun r => r.type = some "pages-deploy")).bind
      (fun r => r.url)

/-! ### The deployed-URL regex `/https:\/\/.+\.(pages|workers)\.dev/`

JavaScript `String.prototype.match` with a non-global regex returns the
leftmost match; within it the backtracking `.+` is greedy, and `.`
matches every character except a line terminator. -/

/-- The characters matched by `.` in a JavaScript regex (no `s` flag). -/
def isDotChar (c : Char) : Bool :=
  c ≠ '\n' && c ≠ '\r' && c ≠ '\u2028' && c ≠ '\u2029'

/-- Length of the maximal prefix of `.`-matchable characters — the
initial, maximal consumption of the greedy `.+`. -/
def dotRunMax : List Char → Nat
  | [] => 0
  | c :: rest => if isDotChar c then dotRunMax rest + 1 else 0

/-- Match of the regex tail `\.(pages|workers)\.dev` against a prefix of
the remaining input; returns the consumed length (the alternation is
deterministic here since the two branches differ at their first
character). -/
def tldCheck (cs : List Char) : Option Nat :=
  if cs.take 10 = ".pages.dev".toList then some 10
  else if cs.take 12 = ".workers.dev".toList then some 12
  else none

/-- Backtracking search for `.+\.(pages|workers)\.dev` at the start of
`cs`: try `.+` consumptions of length `n`, `n-1`, ..., `1` and return the
total matched length for the first (i.e. greediest) that lets the tail
match. -/
def tryFrom (cs : List Char) : Nat → Option Nat
  | 0 => none
  | n + 1 =>
    match tldCheck (cs.drop (n + 1)) with
    | some m => some (n + 1 + m)
    | none => tryFrom cs n

/-- Length of the regex match anchored at the start of `cs`, if any. -/
def matchFromStart (cs : List Char) : Option Nat :=
  if cs.take 8 = "https://".toList then
    match tryFrom (cs.drop 8) (dotRunMax (cs.drop 8)) with
    | some n => some (8 + n)
    | none => none
  else none

/-- `url.match(deployedUrlRegex)` returning `match[0]`: the leftmost
(then greedy) match of the deployed-URL regex inside `cs`. -/
def findMatch : List Char → Option (List Char)
  | [] => none
  | c :: cs =>
    match matchFromStart (c :: cs) with
    | some n => some ((c :: cs).take n)
    | none => findMatch cs

/-- The body of the `try` block of `deploy.ts` lines 134-153 after the
subprocess has exited: `none` when any step throws (missing file, a
JSON.parse failure, a TypeError on a `null` entry, no raw URL candidate,
or a regex mismatch — the `catch` then rethrows) and `some m` when the
regex matched, `m` being the matched substring assigned to
`ctx.deployment.url`.  The file is `none` when `readFile` throws. -/
def tryBlock (file : Option (List LineV)) : Option (List Char) :=
  match file with
  | none => none
  | some lines =>
    match parseEntries lines with
    | .error _ => none
    | .ok entries =>
      match extractRaw entries with
      | .error _ => none
      | .ok none => none
      | .ok (some raw) => findMatch raw.toList

/-! ### URL normalization (`deploy.ts` lines 155-161) -/

/-- First occurrence split on the literal `://`, as performed by
JavaScript `url.split("://")` read through the destructuring
`[proto, hostname]`: `some (before, after)` where `before` is the text
before the first `://` and `after` the text after it. -/
def findSep : List Char → Option (List Char × List Char)
  | [] => none
  | c :: rest =>
    if (c :: rest).take 3 = [':', '/', '/'] then some ([], rest.drop 2)
    else (findSep rest).map (fun p => (c :: p.1, p.2))

/-- Split on `'.'` in the JavaScript `String.prototype.split(".")` sense. -/
def splitDot : List Char → List (List Char)
  | [] => [[]]
  | c :: cs =>
    if c = '.' then [] :: splitDot cs
    else
      match splitDot cs with
      | [] => [[c]]
      | h :: t => (c :: h) :: t

/-- `Array.prototype.join(".")`. -/
def joinDot : List (List Char) → List Char
  | [] => []
  | [x] => x
  | x :: y :: t => x ++ '.' :: joinDot (y :: t)

/-- `Array.prototype.slice(-3)`: keep the last three elements (the whole
array when it has fewer than three). -/
def sliceLastThree (xs : List (List Char)) : List (List Char) :=
  xs.drop (xs.length - 3)

/-- The body of the `if` of `deploy.ts` lines 156-161 (the URL is already
known to end in `.pages.dev`): destructure `url.split("://")` into
`[proto, hostname]` — `none` models the TypeError thrown when there is no
`://` and `hostname` is `undefined` — then keep only the last three
dot-separated labels of `hostname` and rebuild the URL. -/
def normalizePagesUrl (url : List Char) : Option (List Char) :=
  match findSep url with
  | none => none
  | some (proto, rest) =>
    let hostname := match findSep rest with
      | none => rest
      | some p => p.1
    some (proto ++ [':', '/', '/'] ++ joinDot (sliceLastThree (splitDot hostname)))

/-- The whole URL-normalization step: rewrite the URL only when it ends
with `.pages.dev`, otherwise leave it unmodified. -/
def normalizeUrl (url : List Char) : Option (List Char) :=
  if ".pages.dev".toList.isSuffixOf url then normalizePagesUrl url
  else some url

/-- The mutable deployment record of the context: `ctx.deployment.url`. -/
structure DeployCtx : Type where
  url : Option (List Char)
  deriving DecidableEq

/-- The observable outcome of the post-subprocess part of `runDeploy`
(`deploy.ts` lines 134-161), given the initial context and the captured
output file: the thrown error message or unit on success, the final
context, and the ordered list of assignments made to
`ctx.deployment.url`. -/
def runDeployFrom (ctx : DeployCtx) (file : Option (List LineV)) :
    Except String Unit × DeployCtx × List (List Char) :=
  match tryBlock file with
  | none => (.error "Failed to find deployment url.", ctx, [])
  | some raw =>
    if ".pages.dev".toList.isSuffixOf raw then
      match normalizePagesUrl raw with
      | none => (.error "TypeError", { url := some raw }, [raw])
      | some u => (.ok (), { url := some u }, [raw, u])
    else (.ok (), { url := some raw }, [raw])

/-! ## Browser opening (`deploy.ts` lines 164-173) -/

/-- The parts of the context read by `maybeOpenBrowser`, and the poll
collaborator as an oracle. -/
structure BrowserCtx : Type where
  url : Option (List Char)
  openArg : Bool

/-- `maybeOpenBrowser` from `deploy.ts` lines 164-173, returning whether
`openInBrowser` was invoked: `if (ctx.deployment.url)` (an empty string is
falsy), then `poll`, then `if (ctx.args.open)`. -/
def maybeOpenBrowser (pollOracle : List Char → Bool) (ctx : BrowserCtx) :
    Bool :=
  match ctx.url with
  | none => false
  | some u =>
    if u = [] then false
    else if pollOracle u then
      if ctx.openArg then true else false
    else false

/-! ## mTLS certificate name resolution -/

/-- A certificate resource as returned by the registry list endpoint;
only the fields consulted by name resolution are modelled. -/
structure MTlsCert : Type where
  id : String
  name : Option String
  deriving DecidableEq

/-- The not-found error message, with the queried name embedded. -/
def certNotFoundMsg (name : String) : String :=
  "certificate not found with name \"" ++ name ++ "\""

/-- The ambiguity error message, with the queried name embedded. -/
def multipleCertsMsg (name : String) : String :=
  "multiple certificates found with name \"" ++ name ++ "\""

/-- Modelled from the spec: the implementation of
`getMTlsCertificateByName` (in wrangler's `api/mtls-certificate` module)
is not under `src/`; only its tests are (`src/unnamed/part_000`, lines
347-413 and 557-663).  It lists certificates with the queried name as a
server-side filter and decides on the returned list.  Where the spec's
words (client-side re-filtering by exact name) contradict those tests —
which feed certificates named `cert one` to a query for `my-cert` and
expect the multiple-match error (lines 624-650) — the tests govern: the
function branches on the length of the returned list alone, with no
client-side re-filtering. -/
def getMTlsCertificateByName (listed : List MTlsCert) (name : String) :
    Except String MTlsCert :=
  match listed with
  | [] => .error (certNotFoundMsg name)
  | [c] => .ok c
  | _ => .error (multipleCertsMsg name)

/-- The resolver in the words of the claim: first filter the returned
resource set to the entries whose name exactly equals the query, then
require exactly one match. -/
def resolveByNameSpec (listed : List MTlsCert) (name : String) :
    Except String MTlsCert :=
  match listed.filter (fun c => c.name = some name) with
  | [] => .error (certNotFoundMsg name)
  | [c] => .ok c
  | _ => .error (multipleCertsMsg name)

/-- The shape of a substring matched by the deployed-URL regex:
`https://`, then a nonempty run of `.`-matchable characters, then
`.pages.dev` or `.workers.dev`. -/
def UrlShape (m : List Char) : Prop :=
  ∃ mid tail, mid ≠ [] ∧ (∀ c ∈ mid, isDotChar c = true) ∧
    (tail = ".pages.dev".toList ∨ tail = ".workers.dev".toList) ∧
    m = "https://".toList ++ mid ++ tail

/-! ## Lemmas about the configuration search -/

theorem hasBindingFields_of_none :
    ∀ (fs : JFields), firstNonAssets fs = none → hasBindingFields fs = false
  | .nil, _ => rfl
  | .cons k v rest, h => by
    by_cases hk : k = "assets"
    · rw [firstNonAssets, if_pos hk] at h
      rw [hasBindingFields, if_pos hk]
      exact hasBindingFields_of_none rest h
    · rw [firstNonAssets, if_neg hk] at h
      exact absurd h (by simp)

theorem hasBindingFields_of_some :
    ∀ (fs : JFields) (k : String) (v : JNode),
      firstNonAssets fs = some (k, v) →
      hasBindingFields fs =
        if k = "binding" ∨ k = "bindings" then true else hasBinding v
  | .nil, k, v, h => by simp [firstNonAssets] at h
  | .cons k0 v0 rest, k, v, h => by
    by_cases hk : k0 = "assets"
    · rw [firstNonAssets, if_pos hk] at h
      rw [hasBindingFields, if_pos hk]
      exact hasBindingFields_of_some rest k v h
    · rw [firstNonAssets, if_neg hk] at h
      obtain ⟨rfl, rfl⟩ : k0 = k ∧ v0 = v := by simpa using h
      rw [hasBindingFields, if_neg hk]

theorem firstNonAssets_sizeOf :
    ∀ (fs : JFields) (k : String) (v : JNode),
      firstNonAssets fs = some (k, v) → sizeOf v < sizeOf fs
  | .nil, k, v, h => by simp [firstNonAssets] at h
  | .cons k0 v0 rest, k, v, h => by
    by_cases hk : k0 = "assets"
    · rw [firstNonAssets, if_pos hk] at h
      have := firstNonAssets_sizeOf rest k v h
      simp only [JFields.cons.sizeOf_spec]
      omega
    · rw [firstNonAssets, if_neg hk] at h
      obtain ⟨rfl, rfl⟩ : k0 = k ∧ v0 = v := by simpa using h
      simp only [JFields.cons.sizeOf_spec]
      omega

theorem hasBinding_imp_descent_aux :
    ∀ (n : Nat) (t : JNode), sizeOf t ≤ n → hasBinding t = true → DescentFinds t := by
  intro n
  induction n with
  | zero =>
    intro t ht _
    cases t <;> simp_all
  | succ n ih =>
    intro t ht h
    match t with
    | .null => simp [hasBinding] at h
    | .scalar s => simp [hasBinding] at h
    | .arr .nil => simp [hasBinding, hasBindingList] at h
    | .arr (.cons x l) =>
      have hx : sizeOf x ≤ n := by
        simp only [JNode.arr.sizeOf_spec, JList.cons.sizeOf_spec] at ht
        omega
      exact .arrStep x l (ih x hx h)
    | .obj fs =>
      have h' : hasBindingFields fs = true := h
      cases hf : firstNonAssets fs with
      | none => rw [hasBindingFields_of_none fs hf] at h'; exact absurd h' (by simp)
      | some kv =>
        obtain ⟨k, v⟩ := kv
        rw [hasBindingFields_of_some fs k v hf] at h'
        by_cases hk : k = "binding" ∨ k = "bindings"
        · exact .objHit fs k v hf hk
        · rw [if_neg hk] at h'
          push_neg at hk
          have hv : sizeOf v ≤ n := by
            have := firstNonAssets_sizeOf fs k v hf
            simp only [JNode.obj.sizeOf_spec] at ht
            omega
          exact .objStep fs k v hf hk.1 hk.2 (ih v hv h')

theorem hasBinding_imp_descent {t : JNode} (h : hasBinding t = true) :
    DescentFinds t :=
  hasBinding_imp_descent_aux (sizeOf t) t le_rfl h

theorem descent_imp_hasBinding {t : JNode} (h : DescentFinds t) :
    hasBinding t = true := by
  induction h with
  | objHit fs k v hfirst hname =>
    show hasBindingFields fs = true
    rw [hasBindingFields_of_some fs k v hfirst, if_pos hname]
  | objStep fs k v hfirst hb hbs hrec ih =>
    show hasBindingFields fs = true
    rw [hasBindingFields_of_some fs k v hfirst, if_neg (by tauto)]
    exact ih
  | arrStep x l hrec ih => exact ih

mutual
theorem hasBinding_imp_outside :
    ∀ (t : JNode), hasBinding t = true → bindingOutsideAssets t = true
  | .arr l, h => hasBindingList_imp_outside l h
  | .obj fs, h => hasBindingFields_imp_outside fs h
theorem hasBindingList_imp_outside :
    ∀ (l : JList), hasBindingList l = true → bindingOutsideAssetsList l = true
  | .cons x l, h => by
    have hx := hasBinding_imp_outside x h
    show (bindingOutsideAssets x || bindingOutsideAssetsList l) = true
    rw [hx, Bool.true_or]
theorem hasBindingFields_imp_outside :
    ∀ (fs : JFields), hasBindingFields fs = true →
      bindingOutsideAssetsFields fs = true
  | .cons k v rest, h => by
    by_cases hk : k = "assets"
    · rw [hasBindingFields, if_pos hk] at h
      rw [bindingOutsideAssetsFields, if_pos hk]
      exact hasBindingFields_imp_outside rest h
    · by_cases hb : k = "binding" ∨ k = "bindings"
      · rw [bindingOutsideAssetsFields, if_neg hk, if_pos hb]
      · rw [hasBindingFields, if_neg hk, if_neg hb] at h
        have hv := hasBinding_imp_outside v h
        rw [bindingOutsideAssetsFields, if_neg hk, if_neg hb, hv, Bool.true_or]
end

/-- Claim C1 (amended): a mapping node whose key literally named `binding`
or `bindings` is preceded only by keys named `assets` makes `hasBinding`
return true immediately, regardless of the value under that key and of
everything after it.  (The claim's stronger form — true regardless of the
position of the key among the node's keys — is refuted by
`claim_C1_cex`.) -/
theorem claim_C1 :
    ∀ (pre : JFields) (k : String) (v : JNode) (rest : JFields),
      pre.allAssets = true → (k = "binding" ∨ k = "bindings") →
      hasBinding (JNode.obj (pre.append (JFields.cons k v rest))) = true
  | .nil, k, v, rest, _, hk => by
    show hasBindingFields (JFields.cons k v rest) = true
    have hka : k ≠ "assets" := by rcases hk with rfl | rfl <;> decide
    rw [hasBindingFields, if_neg hka, if_pos hk]
  | .cons k0 v0 pre, k, v, rest, hpre, hk => by
    obtain ⟨hk0, hpre'⟩ : k0 = "assets" ∧ pre.allAssets = true := by
      simpa [JFields.allAssets] using hpre
    show hasBindingFields (JFields.cons k0 v0
      (pre.append (JFields.cons k v rest))) = true
    rw [hasBindingFields, if_pos hk0]
    exact claim_C1 pre k v rest hpre' hk

/-- Claim C1, counterexample: a mapping whose first key is `foo` (a
scalar) and whose second key is `binding` yields false — the key named
`binding` is not noticed when another key precedes it. -/
theorem claim_C1_cex :
    hasBinding (JNode.obj (JFields.cons "foo" (JNode.scalar "x")
      (JFields.cons "binding" (JNode.scalar "y") JFields.nil))) = false := rfl

theorem claim_C1_witness :
    hasBinding (JNode.obj ((JFields.cons "assets" JNode.null JFields.nil).append
      (JFields.cons "binding" JNode.null
        (JFields.cons "other" (JNode.scalar "z") JFields.nil)))) = true :=
  claim_C1 (JFields.cons "assets" JNode.null JFields.nil) "binding" JNode.null
    (JFields.cons "other" (JNode.scalar "z") JFields.nil) (by decide) (Or.inl rfl)

/-- Claim C2: `hasBinding` returns true exactly on the trees in which a
`binding`/`bindings` key is reachable by the first-key-only descent; a
tree with no such key outside `assets` subtrees (in particular one whose
only such key sits inside an `assets` subtree) yields false; and every
non-mapping, non-sequence leaf and `null`/absent node yields false. -/
theorem claim_C2 (t : JNode) :
    (hasBinding t = true ↔ DescentFinds t) ∧
    (bindingOutsideAssets t = false → hasBinding t = false) ∧
    hasBinding JNode.null = false ∧
    (∀ s, hasBinding (JNode.scalar s) = false) := by
  refine ⟨⟨hasBinding_imp_descent, descent_imp_hasBinding⟩, ?_, rfl, fun _ => rfl⟩
  intro hout
  cases hb : hasBinding t
  · rfl
  · rw [hasBinding_imp_outside t hb] at hout
    exact absurd hout (by simp)

theorem claim_C2_witness :
    hasBinding (JNode.obj (JFields.cons "assets"
      (JNode.obj (JFields.cons "binding" JNode.null JFields.nil))
      JFields.nil)) = false :=
  (claim_C2 _).2.1 rfl

/-! ## Claims about the deployability gate and browser opening -/

/-- Claim C7: a `pages`-platform context is deployable without consulting
any configuration (the result is true for every parser oracle and file
content); any other context is deployable exactly when `hasBinding` of the
parsed configuration is false, where the configuration is the JSON/JSONC
parse of the JSON file when that file exists and otherwise the TOML parse
of the TOML file with CRLF normalized to LF. -/
theorem claim_C7 (jp tp : List Char → JNode) (env : ConfigEnv) :
    (env.platform = "pages" → isDeployable jp tp env = true) ∧
    (env.platform ≠ "pages" →
      (isDeployable jp tp env = true ↔
        hasBinding (readWranglerConfig jp tp env) = false)) ∧
    (env.jsonExists = true → readWranglerConfig jp tp env = jp env.jsonStr) ∧
    (env.jsonExists = false →
      readWranglerConfig jp tp env = tp (crlfToLf env.tomlStr)) := by
  refine ⟨fun h => ?_, fun h => ?_, fun h => ?_, fun h => ?_⟩
  · rw [isDeployable, if_pos h]
  · rw [isDeployable, if_neg h]
    simp
  · rw [readWranglerConfig, if_pos h]
  · rw [readWranglerConfig]
    rw [h]
    simp
theorem claim_C7_witness :
    isDeployable (fun _ => JNode.obj (JFields.cons "binding" JNode.null JFields.nil))
      (fun _ => JNode.null) ⟨"workers", true, [], []⟩ = false := by
  have h := (claim_C7
    (fun _ => JNode.obj (JFields.cons "binding" JNode.null JFields.nil))
    (fun _ => JNode.null) ⟨"workers", true, [], []⟩).2.1 (by decide)
  cases hb : isDeployable (fun _ => JNode.obj (JFields.cons "binding" JNode.null JFields.nil))
      (fun _ => JNode.null) ⟨"workers", true, [], []⟩
  · rfl
  · have := h.mp hb
    exact absurd this (by simp [readWranglerConfig, hasBinding, hasBindingFields])

/-- Claim C8: `maybeOpenBrowser` triggers the browser-open side effect
exactly when the deployment URL is set (and nonempty, since JavaScript
treats an empty string as falsy), the availability poll of that URL
succeeded, and the operator requested opening; if any of these fails the
browser is never opened. -/
theorem claim_C8 (pollOracle : List Char → Bool) (ctx : BrowserCtx) :
    maybeOpenBrowser pollOracle ctx = true ↔
      ∃ u, ctx.url = some u ∧ u ≠ [] ∧ pollOracle u = true ∧
        ctx.openArg = true := by
  obtain ⟨url, openArg⟩ := ctx
  cases url with
  | none => simp [maybeOpenBrowser]
  | some u =>
    simp only [maybeOpenBrowser]
    by_cases he : u = []
    · simp [he]
    · simp only [if_neg he, Option.some.injEq]
      constructor
      · intro h
        cases hp : pollOracle u
        · rw [hp] at h
          simp at h
        · rw [hp] at h
          simp at h
          exact ⟨u, rfl, he, hp, h⟩
      · rintro ⟨u', hu', hne, hp, ho⟩
        obtain rfl : u = u' := hu'
        rw [hp, ho]
        simp

theorem claim_C8_witness :
    maybeOpenBrowser (fun _ => true) ⟨some ['u'], true⟩ = true :=
  (claim_C8 (fun _ => true) ⟨some ['u'], true⟩).mpr
    ⟨['u'], rfl, by decide, rfl, rfl⟩

/-! ## Claims about certificate name resolution -/

/-- Claim C3, counterexample (the scenario of the repository's own tests,
`src/unnamed/part_000` lines 624-650): when the returned set holds two
certificates named `cert one` and the query is `my-cert`, the code fails
with the multiple-match message for `my-cert`, whereas filtering to
exact-name matches first — as the claim states — would produce the
not-found message.  The two behaviours differ, so the claim is false. -/
theorem claim_C3_cex :
    getMTlsCertificateByName
        [⟨"1234", some "cert one"⟩, ⟨"5678", some "cert one"⟩] "my-cert"
      = Except.error "multiple certificates found with name \"my-cert\"" ∧
    resolveByNameSpec
        [⟨"1234", some "cert one"⟩, ⟨"5678", some "cert one"⟩] "my-cert"
      = Except.error "certificate not found with name \"my-cert\"" ∧
    (Except.error "multiple certificates found with name \"my-cert\""
        : Except String MTlsCert)
      ≠ Except.error "certificate not found with name \"my-cert\"" := by
  refine ⟨rfl, ?_, by simp⟩
  simp [resolveByNameSpec, List.filter, certNotFoundMsg]

/-- Claim C3 (amended): name resolution decides on the returned resource
set as-is, without client-side re-filtering by exact name: an empty set
fails with the not-found message, a singleton returns its entry, and two
or more entries fail with the multiple-match message; both messages embed
the exact queried name, and several matches are never silently resolved
by picking one. -/
theorem claim_C3 (listed : List MTlsCert) (name : String) :
    (listed = [] →
      getMTlsCertificateByName listed name =
        Except.error (certNotFoundMsg name)) ∧
    (∀ c, listed = [c] → getMTlsCertificateByName listed name = Except.ok c) ∧
    (2 ≤ listed.length →
      getMTlsCertificateByName listed name =
        Except.error (multipleCertsMsg name)) ∧
    name.toList <:+: (certNotFoundMsg name).toList ∧
    name.toList <:+: (multipleCertsMsg name).toList := by
  refine ⟨fun h => ?_, fun c h => ?_, fun h => ?_, ?_, ?_⟩
  · subst h; rfl
  · subst h; rfl
  · match listed, h with
    | c1 :: c2 :: rest, _ => rfl
  · exact ⟨"certificate not found with name \"".toList, "\"".toList, by
      simp [certNotFoundMsg]⟩
  · exact ⟨"multiple certificates found with name \"".toList, "\"".toList, by
      simp [multipleCertsMsg]⟩

theorem claim_C3_witness :
    getMTlsCertificateByName [⟨"1234", some "cert one"⟩] "cert one"
      = Except.ok ⟨"1234", some "cert one"⟩ :=
  (claim_C3 [⟨"1234", some "cert one"⟩] "cert one").2.1
    ⟨"1234", some "cert one"⟩ rfl

/-! ## Claims about the deploy runner -/

theorem findByType_map_some (t : String) :
    ∀ (records : List OutputRecord),
      findByType t (records.map some) =
        Except.ok (records.find? (fun r => r.type = some t))
  | [] => rfl
  | r :: rest => by
    by_cases h : r.type = some t
    · simp [findByType, List.find?, h]
    · simp only [List.map_cons, findByType, if_neg h, List.find?]
      rw [findByType_map_some t rest]
      simp [h]

theorem parseEntries_map_ok :
    ∀ (records : List OutputRecord),
      parseEntries (records.map (fun r => LineV.ok (some r))) =
        Except.ok (records.map some)
  | [] => rfl
  | r :: rest => by
    simp only [List.map_cons, parseEntries]
    rw [parseEntries_map_ok rest]
    rfl

theorem extractRaw_map_some (records : List OutputRecord) :
    extractRaw (records.map some) = Except.ok (claimExtract records) := by
  rw [extractRaw, claimExtract]
  rw [findByType_map_some "deploy" records]
  cases hd : ((records.find? (fun r => r.type = some "deploy")).bind
      (fun r => r.targets)).bind List.head? with
  | some u =>
    simp [bind, Except.bind, hd, pure, Except.pure]
  | none =>
    simp [bind, Except.bind, hd, Functor.map, Except.map, pure, Except.pure,
      findByType_map_some "pages-deploy" records]

/-- Claim C4: the URL extraction takes, in priority order, the first
element of the targets list of the first record of type `deploy`, else the
url field of the first record of type `pages-deploy`; the candidate is
then gated by the deployed-URL pattern, a failing candidate being
identical to none; and the record list
`[(type deploy, targets [https://foo.workers.dev])]` extracts
`https://foo.workers.dev`. -/
theorem claim_C4 (records : List OutputRecord) :
    extractRaw (records.map some) = Except.ok (claimExtract records) ∧
    tryBlock (some (records.map (fun r => LineV.ok (some r)))) =
      (claimExtract records).bind (fun s => findMatch s.toList) ∧
    tryBlock (some [LineV.ok (some ⟨some "deploy",
        some ["https://foo.workers.dev"], none⟩)]) =
      some "https://foo.workers.dev".toList := by
  refine ⟨extractRaw_map_some records, ?_, by decide⟩
  simp only [tryBlock]
  rw [parseEntries_map_ok records]
  show (match extractRaw (records.map some) with
    | .error _ => none
    | .ok none => none
    | .ok (some raw) => findMatch raw.toList) =
      (claimExtract records).bind (fun s => findMatch s.toList)
  rw [extractRaw_map_some records]
  cases hce : claimExtract records with
  | none => rfl
  | some raw => rfl

/-! ## Lemmas about the deployed-URL regex model -/

theorem tldCheck_cases {cs : List Char} {n : Nat} (h : tldCheck cs = some n) :
    (n = 10 ∧ cs.take 10 = ".pages.dev".toList) ∨
    (n = 12 ∧ cs.take 12 = ".workers.dev".toList) := by
  rw [tldCheck] at h
  by_cases h10 : cs.take 10 = ".pages.dev".toList
  · rw [if_pos h10] at h
    exact Or.inl ⟨(Option.some.inj h).symm, h10⟩
  · rw [if_neg h10] at h
    by_cases h12 : cs.take 12 = ".workers.dev".toList
    · rw [if_pos h12] at h
      exact Or.inr ⟨(Option.some.inj h).symm, h12⟩
    · rw [if_neg h12] at h
      exact absurd h (by simp)

theorem tldCheck_pages {cs : List Char}
    (h : cs.take 10 = ".pages.dev".toList) : tldCheck cs = some 10 := by
  rw [tldCheck, if_pos h]

theorem tldCheck_workers {cs : List Char}
    (h : cs.take 12 = ".workers.dev".toList) : tldCheck cs = some 12 := by
  have h10 : cs.take 10 = ".workers.d".toList := by
    have : (cs.take 12).take 10 = ".workers.dev".toList.take 10 := by rw [h]
    rw [List.take_take, show min 10 12 = 10 from rfl] at this
    rw [this]
    decide
  rw [tldCheck, if_neg (by rw [h10]; decide), if_pos h]

theorem tryFrom_some {cs : List Char} :
    ∀ {N k : Nat}, tryFrom cs N = some k →
      ∃ n m, 1 ≤ n ∧ n ≤ N ∧ tldCheck (cs.drop n) = some m ∧ k = n + m := by
  intro N
  induction N with
  | zero => intro k h; simp [tryFrom] at h
  | succ N ih =>
    intro k h
    rw [tryFrom] at h
    cases ht : tldCheck (cs.drop (N + 1)) with
    | some m =>
      rw [ht] at h
      exact ⟨N + 1, m, by omega, le_rfl, ht, (Option.some.inj h).symm⟩
    | none =>
      rw [ht] at h
      obtain ⟨n, m, h1, hN, htld, hk⟩ := ih h
      exact ⟨n, m, h1, by omega, htld, hk⟩

theorem tryFrom_ne_none {cs : List Char} {n m : Nat} (h1 : 1 ≤ n)
    (ht : tldCheck (cs.drop n) = some m) :
    ∀ {N : Nat}, n ≤ N → tryFrom cs N ≠ none := by
  intro N
  induction N with
  | zero => intro hN; omega
  | succ N ih =>
    intro hN
    rw [tryFrom]
    cases h' : tldCheck (cs.drop (N + 1)) with
    | some m' => simp
    | none =>
      have hne : n ≠ N + 1 := fun he => by rw [he, h'] at ht; exact absurd ht (by simp)
      exact ih (by omega)

theorem dotRun_take {cs : List Char} :
    ∀ {n : Nat}, n ≤ dotRunMax cs → ∀ c ∈ cs.take n, isDotChar c = true := by
  induction cs with
  | nil => intro n _ c hc; simp at hc
  | cons a cs ih =>
    intro n hn c hc
    by_cases ha : isDotChar a
    · rw [dotRunMax, if_pos ha] at hn
      match n, hc with
      | m + 1, hc =>
        rw [List.take_succ_cons] at hc
        rcases List.mem_cons.mp hc with rfl | hc'
        · exact ha
        · exact ih (by omega) c hc'
    · rw [dotRunMax, if_neg ha] at hn
      interval_cases n
      simp at hc

theorem dotRun_ge {p : List Char} :
    ∀ {cs : List Char}, (∀ c ∈ p, isDotChar c = true) → p <+: cs →
      p.length ≤ dotRunMax cs := by
  induction p with
  | nil => intro cs _ _; simp
  | cons a p ih =>
    intro cs hall hpre
    match cs, hpre with
    | b :: cs, hpre =>
      obtain ⟨rfl, hpre'⟩ := List.cons_prefix_cons.mp hpre
      have ha : isDotChar a = true := hall a (List.mem_cons_self a p)
      rw [dotRunMax, if_pos ha]
      have := ih (fun c hc => hall c (List.mem_cons_of_mem a hc)) hpre'
      simpa [List.length_cons] using Nat.succ_le_succ this

theorem matchFromStart_sound {cs : List Char} {k : Nat}
    (h : matchFromStart cs = some k) : UrlShape (cs.take k) := by
  rw [matchFromStart] at h
  by_cases h8 : cs.take 8 = "https://".toList
  · rw [if_pos h8] at h
    cases htf : tryFrom (cs.drop 8) (dotRunMax (cs.drop 8)) with
    | none => rw [htf] at h; exact absurd h (by simp)
    | some n =>
      rw [htf] at h
      obtain rfl : k = 8 + n := (Option.some.inj h).symm
      obtain ⟨r, m, hr1, hrmax, htld, rfl⟩ := tryFrom_some htf
      have e1 : cs.take (8 + (r + m)) =
          cs.take 8 ++ (cs.drop 8).take (r + m) := List.take_add cs 8 (r + m)
      have e2 : (cs.drop 8).take (r + m) =
          (cs.drop 8).take r ++ ((cs.drop 8).drop r).take m :=
        List.take_add _ r m
      have hmid : ∀ c ∈ (cs.drop 8).take r, isDotChar c = true :=
        dotRun_take hrmax
      have hmidne : ∀ (j : Nat), 1 ≤ j → j ≤ ((cs.drop 8).drop r).length →
          (cs.drop 8).take r ≠ [] := by
        intro j hj1 hj
        have hrle : r ≤ (cs.drop 8).length := by
          rw [List.length_drop] at hj
          omega
        have : ((cs.drop 8).take r).length = r := by
          rw [List.length_take]
          omega
        intro hnil
        rw [hnil] at this
        simp at this
        omega
      rcases tldCheck_cases htld with ⟨rfl, hp⟩ | ⟨rfl, hp⟩
      · have hlen : 10 ≤ ((cs.drop 8).drop r).length := by
          have := congrArg List.length hp
          rw [List.length_take] at this
          have hd : (".pages.dev".toList).length = 10 := by decide
          rw [hd] at this
          omega
        refine ⟨(cs.drop 8).take r, ".pages.dev".toList,
          hmidne 10 (by omega) hlen, hmid, Or.inl rfl, ?_⟩
        rw [e1, e2, h8, hp, List.append_assoc]
      · have hlen : 12 ≤ ((cs.drop 8).drop r).length := by
          have := congrArg List.length hp
          rw [List.length_take] at this
          have hd : (".workers.dev".toList).length = 12 := by decide
          rw [hd] at this
          omega
        refine ⟨(cs.drop 8).take r, ".workers.dev".toList,
          hmidne 12 (by omega) hlen, hmid, Or.inr rfl, ?_⟩
        rw [e1, e2, h8, hp, List.append_assoc]
  · rw [if_neg h8] at h
    exact absurd h (by simp)

theorem take_left_len {α : Type} (l1 l2 : List α) {n : Nat}
    (h : l1.length = n) : (l1 ++ l2).take n = l1 := by
  subst h
  exact List.take_left l1 l2

theorem drop_left_len {α : Type} (l1 l2 : List α) {n : Nat}
    (h : l1.length = n) : (l1 ++ l2).drop n = l2 := by
  subst h
  exact List.drop_left l1 l2

theorem matchFromStart_complete {m cs : List Char} (hs : UrlShape m)
    (hpre : m <+: cs) : matchFromStart cs ≠ none := by
  obtain ⟨mid, tail, hmidne, hmiddot, htail, rfl⟩ := hs
  obtain ⟨post, rfl⟩ := hpre
  simp only [List.append_assoc]
  have h8 : ("https://".toList ++ (mid ++ (tail ++ post))).take 8 =
      "https://".toList := take_left_len _ _ (by decide)
  have hd8 : ("https://".toList ++ (mid ++ (tail ++ post))).drop 8 =
      mid ++ (tail ++ post) := drop_left_len _ _ (by decide)
  rw [matchFromStart, if_pos h8, hd8]
  have htld : ∃ mm, tldCheck ((mid ++ (tail ++ post)).drop mid.length) = some mm := by
    rw [drop_left_len _ _ rfl]
    rcases htail with rfl | rfl
    · exact ⟨10, tldCheck_pages (take_left_len _ _ (by decide))⟩
    · exact ⟨12, tldCheck_workers (take_left_len _ _ (by decide))⟩
  obtain ⟨mm, htld⟩ := htld
  have hcount : mid.length ≤ dotRunMax (mid ++ (tail ++ post)) :=
    dotRun_ge hmiddot (List.prefix_append mid (tail ++ post))
  have h1 : 1 ≤ mid.length := List.length_pos.mpr hmidne
  have hne := tryFrom_ne_none h1 htld hcount
  cases htf : tryFrom (mid ++ (tail ++ post)) (dotRunMax (mid ++ (tail ++ post))) with
  | none => exact absurd htf hne
  | some n => simp [htf]

theorem findMatch_sound : ∀ {s m : List Char},
    findMatch s = some m → UrlShape m ∧ m <:+: s := by
  intro s
  induction s with
  | nil => intro m h; simp [findMatch] at h
  | cons c cs ih =>
    intro m h
    rw [findMatch] at h
    cases hm : matchFromStart (c :: cs) with
    | some k =>
      rw [hm] at h
      obtain rfl : (c :: cs).take k = m := Option.some.inj h
      exact ⟨matchFromStart_sound hm, (List.take_prefix k (c :: cs)).isInfix⟩
    | none =>
      rw [hm] at h
      obtain ⟨hs, hi⟩ := ih h
      exact ⟨hs, List.infix_cons hi⟩

theorem findMatch_of_matchFromStart {s : List Char} {k : Nat}
    (h : matchFromStart s = some k) (hne : s ≠ []) : findMatch s ≠ none := by
  match s, hne with
  | c :: cs, _ =>
    rw [findMatch, h]
    simp

theorem findMatch_complete :
    ∀ (pre : List Char) {m : List Char} (post : List Char), UrlShape m →
      findMatch (pre ++ m ++ post) ≠ none := by
  intro pre
  induction pre with
  | nil =>
    intro m post hs
    rw [List.nil_append]
    have hmne : m ++ post ≠ [] := by
      obtain ⟨mid, tail, _, _, _, rfl⟩ := hs
      simp
    cases hmf : matchFromStart (m ++ post) with
    | none => exact absurd hmf (matchFromStart_complete hs (List.prefix_append m post))
    | some k => exact findMatch_of_matchFromStart hmf hmne
  | cons c pre ih =>
    intro m post hs
    rw [List.cons_append, List.cons_append, findMatch]
    cases hmf : matchFromStart (c :: (pre ++ m ++ post)) with
    | some k => simp
    | none =>
      simp only []
      exact ih post hs

/-- Claim C10: the URL pattern check is an unanchored substring match —
it succeeds exactly when the candidate value contains a substring of the
form `https://` + nonempty run + `.pages.dev` or `.workers.dev`, and the
stored value is such a matched substring of the candidate (not the whole
candidate). -/
theorem claim_C10 (s : List Char) :
    ((∃ pre m post, UrlShape m ∧ s = pre ++ m ++ post) ↔ findMatch s ≠ none) ∧
    (∀ m, findMatch s = some m → UrlShape m ∧ m <:+: s) := by
  refine ⟨⟨?_, ?_⟩, fun m h => findMatch_sound h⟩
  · rintro ⟨pre, m, post, hshape, rfl⟩
    exact findMatch_complete pre post hshape
  · intro h
    cases hm : findMatch s with
    | none => exact absurd hm h
    | some m =>
      obtain ⟨hshape, hinf⟩ := findMatch_sound hm
      obtain ⟨pre, post, heq⟩ := hinf
      exact ⟨pre, m, post, hshape, heq.symm⟩

theorem claim_C10_witness :
    UrlShape "https://foo.workers.dev".toList ∧
    "https://foo.workers.dev".toList <:+:
      "x https://foo.workers.dev/path".toList :=
  (claim_C10 "x https://foo.workers.dev/path".toList).2
    "https://foo.workers.dev".toList (by decide)

/-! ## Lemmas about the deploy runner error path -/

theorem parseEntries_bad :
    ∀ {lines : List LineV}, LineV.bad ∈ lines → parseEntries lines = .error () := by
  intro lines
  induction lines with
  | nil => intro h; simp at h
  | cons l rest ih =>
    intro h
    match l with
    | .bad => rfl
    | .blank =>
      have : LineV.bad ∈ rest := by
        rcases List.mem_cons.mp h with h' | h'
        · exact absurd h' (by simp)
        · exact h'
      rw [parseEntries]
      exact ih this
    | .ok e =>
      have : LineV.bad ∈ rest := by
        rcases List.mem_cons.mp h with h' | h'
        · exact absurd h' (by simp)
        · exact h'
      rw [parseEntries, ih this]
      rfl

theorem tryBlock_some_shape {file : Option (List LineV)} {raw : List Char}
    (h : tryBlock file = some raw) : ∃ t, raw = "https://".toList ++ t := by
  match file with
  | none => exact absurd h (by simp [tryBlock])
  | some lines =>
    rw [tryBlock] at h
    split at h
    · exact absurd h (by simp)
    · split at h
      · exact absurd h (by simp)
      · exact absurd h (by simp)
      · obtain ⟨⟨mid, tail, _, _, _, hshape⟩, _⟩ := findMatch_sound h
        exact ⟨mid ++ tail, by rw [hshape, List.append_assoc]⟩

theorem findSep_cons_ne {c : Char} {rest : List Char} (hc : c ≠ ':') :
    findSep (c :: rest) = (findSep rest).map (fun q => (c :: q.1, q.2)) := by
  have hne : ((c :: rest).take 3) ≠ [':', '/', '/'] := by
    rw [List.take_succ_cons]
    intro he
    exact hc (List.head_eq_of_cons_eq he)
  simp only [findSep, if_neg hne]

theorem findSep_sep {p t : List Char} (hp : ':' ∉ p) :
    findSep (p ++ ':' :: '/' :: '/' :: t) = some (p, t) := by
  induction p with
  | nil =>
    rw [List.nil_append]
    simp only [findSep]
    rw [if_pos (by rw [List.take_succ_cons, List.take_succ_cons, List.take_succ_cons]; simp)]
    rfl
  | cons c p ih =>
    have hc : c ≠ ':' := fun he => hp (he ▸ List.mem_cons_self c p)
    have hp' : ':' ∉ p := fun hm => hp (List.mem_cons_of_mem c hm)
    rw [List.cons_append, findSep_cons_ne hc, ih hp']
    rfl

theorem normalizePagesUrl_https (t : List Char) :
    ∃ u, normalizePagesUrl ("https://".toList ++ t) = some u := by
  have he : "https://".toList ++ t = "https".toList ++ ':' :: '/' :: '/' :: t := rfl
  have hs : findSep ("https://".toList ++ t) = some ("https".toList, t) := by
    rw [he]
    exact findSep_sep (by decide)
  rw [normalizePagesUrl, hs]
  exact ⟨_, rfl⟩

theorem runDeployFrom_eq (ctx : DeployCtx) (file : Option (List LineV)) :
    (tryBlock file = none ∧
      runDeployFrom ctx file =
        (.error "Failed to find deployment url.", ctx, [])) ∨
    (∃ raw u, tryBlock file = some raw ∧
      ".pages.dev".toList.isSuffixOf raw = true ∧
      normalizePagesUrl raw = some u ∧
      runDeployFrom ctx file = (.ok (), ⟨some u⟩, [raw, u])) ∨
    (∃ raw, tryBlock file = some raw ∧
      ".pages.dev".toList.isSuffixOf raw = false ∧
      runDeployFrom ctx file = (.ok (), ⟨some raw⟩, [raw])) := by
  cases ht : tryBlock file with
  | none =>
    left
    exact ⟨rfl, by rw [runDeployFrom, ht]⟩
  | some raw =>
    obtain ⟨t, rfl⟩ := tryBlock_some_shape ht
    obtain ⟨u, hu⟩ := normalizePagesUrl_https t
    cases hs : ".pages.dev".toList.isSuffixOf ("https://".toList ++ t) with
    | true =>
      right; left
      refine ⟨_, u, rfl, hs, hu, ?_⟩
      rw [runDeployFrom, ht]
      show (if ".pages.dev".toList.isSuffixOf ("https://".toList ++ t) = true then
          match normalizePagesUrl ("https://".toList ++ t) with
          | none => (Except.error "TypeError",
              ({ url := some ("https://".toList ++ t) } : DeployCtx),
              ["https://".toList ++ t])
          | some u => (Except.ok (), ({ url := some u } : DeployCtx),
              ["https://".toList ++ t, u])
        else (Except.ok (), ({ url := some ("https://".toList ++ t) } : DeployCtx),
          ["https://".toList ++ t])) =
        (Except.ok (), ({ url := some u } : DeployCtx), ["https://".toList ++ t, u])
      rw [if_pos hs, hu]
    | false =>
      right; right
      refine ⟨_, rfl, hs, ?_⟩
      rw [runDeployFrom, ht]
      show (if ".pages.dev".toList.isSuffixOf ("https://".toList ++ t) = true then
          match normalizePagesUrl ("https://".toList ++ t) with
          | none => (Except.error "TypeError",
              ({ url := some ("https://".toList ++ t) } : DeployCtx),
              ["https://".toList ++ t])
          | some u => (Except.ok (), ({ url := some u } : DeployCtx),
              ["https://".toList ++ t, u])
        else (Except.ok (), ({ url := some ("https://".toList ++ t) } : DeployCtx),
          ["https://".toList ++ t])) =
        (Except.ok (), ({ url := some ("https://".toList ++ t) } : DeployCtx),
          ["https://".toList ++ t])
      rw [if_neg (by rw [hs]; simp)]

/-- Claim C5: an absent output file, an empty one, one with any line that
fails to parse as JSON, and one yielding no pattern-matching URL all make
the post-subprocess phase of `runDeploy` fail, and every failure of that
phase carries the single exact message `Failed to find deployment url.` —
the underlying parse exception is never surfaced. -/
theorem claim_C5 (ctx : DeployCtx) (file : Option (List LineV)) :
    (file = none → (runDeployFrom ctx file).1 =
      Except.error "Failed to find deployment url.") ∧
    (file = some [] → (runDeployFrom ctx file).1 =
      Except.error "Failed to find deployment url.") ∧
    (∀ lines, file = some lines → LineV.bad ∈ lines →
      (runDeployFrom ctx file).1 =
        Except.error "Failed to find deployment url.") ∧
    (tryBlock file = none → (runDeployFrom ctx file).1 =
      Except.error "Failed to find deployment url.") ∧
    (∀ e, (runDeployFrom ctx file).1 = Except.error e →
      e = "Failed to find deployment url.") := by
  have h4 : tryBlock file = none → (runDeployFrom ctx file).1 =
      Except.error "Failed to find deployment url." := by
    intro htb
    rw [runDeployFrom, htb]
  refine ⟨fun h => ?_, fun h => ?_, fun lines h hb => ?_, h4, fun e h => ?_⟩
  · subst h; exact h4 rfl
  · subst h; exact h4 rfl
  · subst h
    refine h4 ?_
    rw [tryBlock, parseEntries_bad hb]
  · rcases runDeployFrom_eq ctx file with ⟨_, heq⟩ | ⟨raw, u, _, _, _, heq⟩ |
      ⟨raw, _, _, heq⟩
    · rw [heq] at h
      exact (Except.error.inj h).symm
    · rw [heq] at h
      exact absurd h (by simp)
    · rw [heq] at h
      exact absurd h (by simp)

theorem claim_C5_witness :
    (runDeployFrom ⟨none⟩ none).1 =
      Except.error "Failed to find deployment url." :=
  (claim_C5 ⟨none⟩ none).1 rfl

/-- Claim C9, counterexample: on a deploy record whose target is a
`.pages.dev` URL, `runDeploy` assigns `ctx.deployment.url` twice — the raw
match and then the normalized URL — with two distinct values, refuting
"writes the url field at most once". -/
theorem claim_C9_cex :
    (runDeployFrom ⟨none⟩ (some [LineV.ok (some ⟨some "deploy",
        some ["https://a.b.pages.dev"], none⟩)])).2.2 =
      ["https://a.b.pages.dev".toList, "https://b.pages.dev".toList] := by
  decide

/-- Claim C9 (amended): the post-subprocess phase of `runDeploy` writes
`ctx.deployment.url` at most twice — the second write occurring only on
the `.pages.dev` success path, where it is exactly the normalization of
the first; every throwing execution leaves the context untouched with no
write performed; and a successful return leaves the url defined, equal to
the last write. -/
theorem claim_C9 (ctx : DeployCtx) (file : Option (List LineV)) :
    (∀ e, (runDeployFrom ctx file).1 = Except.error e →
      (runDeployFrom ctx file).2.1 = ctx ∧
        (runDeployFrom ctx file).2.2 = []) ∧
    (runDeployFrom ctx file).2.2.length ≤ 2 ∧
    ((runDeployFrom ctx file).1 = Except.ok () →
      ∃ w, (runDeployFrom ctx file).2.1.url = some w ∧
        (runDeployFrom ctx file).2.2.getLast? = some w) ∧
    (∀ a b, (runDeployFrom ctx file).2.2 = [a, b] →
      ".pages.dev".toList.isSuffixOf a = true ∧
        normalizePagesUrl a = some b) := by
  rcases runDeployFrom_eq ctx file with ⟨_, heq⟩ | ⟨raw, u, _, hs, hu, heq⟩ |
    ⟨raw, _, hs, heq⟩ <;> rw [heq]
  · refine ⟨fun e _ => ⟨rfl, rfl⟩, by simp, fun h => absurd h (by simp),
      fun a b h => absurd h (by simp)⟩
  · refine ⟨fun e h => absurd h (by simp), by simp, fun _ => ⟨u, rfl, by simp⟩,
      fun a b h => ?_⟩
    obtain ⟨rfl, rfl⟩ : raw = a ∧ u = b := by simpa using h
    exact ⟨hs, hu⟩
  · refine ⟨fun e h => absurd h (by simp), by simp, fun _ => ⟨raw, rfl, by simp⟩,
      fun a b h => absurd h (by simp)⟩

theorem claim_C9_witness :
    (runDeployFrom ⟨some ['x']⟩ none).2.1 = ⟨some ['x']⟩ :=
  ((claim_C9 ⟨some ['x']⟩ none).1 "Failed to find deployment url." rfl).1

/-! ## Lemmas about URL normalization -/

theorem getLast?_mem_of_eq {α : Type} {l : List α} {a : α}
    (h : l.getLast? = some a) : a ∈ l := by
  obtain ⟨hne, rfl⟩ := List.mem_getLast?_eq_getLast (Option.mem_def.mpr h)
  exact List.getLast_mem hne

theorem findSep_no_colon : ∀ {l : List Char}, ':' ∉ l → findSep l = none := by
  intro l
  induction l with
  | nil => intro _; rfl
  | cons c rest ih =>
    intro h
    have hc : c ≠ ':' := fun he => h (he ▸ List.mem_cons_self c rest)
    rw [findSep_cons_ne hc, ih (fun hm => h (List.mem_cons_of_mem c hm))]
    rfl

theorem splitDot_cons_dot (cs : List Char) :
    splitDot ('.' :: cs) = [] :: splitDot cs := by
  simp [splitDot]

theorem splitDot_cons_ne {c : Char} (hc : c ≠ '.') (cs : List Char) :
    splitDot (c :: cs) =
      match splitDot cs with
      | [] => [[c]]
      | h :: t => (c :: h) :: t := by
  simp [splitDot, hc]

theorem splitDot_ne_nil : ∀ (cs : List Char), splitDot cs ≠ []
  | [] => by simp [splitDot]
  | c :: cs => by
    by_cases hc : c = '.'
    · subst hc
      rw [splitDot_cons_dot]
      simp
    · rw [splitDot_cons_ne hc]
      cases h : splitDot cs with
      | nil => simp
      | cons hd tl => simp

theorem splitDot_append_dot : ∀ (xs ys : List Char),
    splitDot (xs ++ '.' :: ys) = splitDot xs ++ splitDot ys
  | [], ys => by
    rw [List.nil_append, splitDot_cons_dot]
    rfl
  | c :: xs, ys => by
    by_cases hc : c = '.'
    · subst hc
      rw [List.cons_append, splitDot_cons_dot, splitDot_append_dot xs ys,
        splitDot_cons_dot]
      rfl
    · rw [List.cons_append, splitDot_cons_ne hc, splitDot_append_dot xs ys,
        splitDot_cons_ne hc]
      cases h : splitDot xs with
      | nil => exact absurd h (splitDot_ne_nil xs)
      | cons hd tl => rfl

theorem splitDot_no_dot : ∀ (xs : List Char),
    (∀ c ∈ xs, c ≠ '.') → splitDot xs = [xs]
  | [], _ => rfl
  | c :: xs, h => by
    have hc : c ≠ '.' := h c (List.mem_cons_self c xs)
    rw [splitDot_cons_ne hc,
      splitDot_no_dot xs (fun c' hc' => h c' (List.mem_cons_of_mem _ hc'))]

theorem splitDot_mem : ∀ (xs l : List Char), l ∈ splitDot xs →
    ∀ c ∈ l, c ∈ xs ∧ c ≠ '.'
  | [], l, hl => by
    simp [splitDot] at hl
    subst hl
    simp
  | a :: xs, l, hl => by
    by_cases ha : a = '.'
    · subst ha
      rw [splitDot_cons_dot] at hl
      rcases List.mem_cons.mp hl with rfl | hl'
      · simp
      · intro c hc
        obtain ⟨hin, hne⟩ := splitDot_mem xs l hl' c hc
        exact ⟨List.mem_cons_of_mem _ hin, hne⟩
    · rw [splitDot_cons_ne ha] at hl
      cases h : splitDot xs with
      | nil => exact absurd h (splitDot_ne_nil xs)
      | cons hd tl =>
        rw [h] at hl
        rcases List.mem_cons.mp hl with rfl | hl'
        · intro c hc
          rcases List.mem_cons.mp hc with rfl | hc'
          · exact ⟨List.mem_cons_self _ _, ha⟩
          · obtain ⟨hin, hne⟩ := splitDot_mem xs hd
              (by rw [h]; exact List.mem_cons_self hd tl) c hc'
            exact ⟨List.mem_cons_of_mem a hin, hne⟩
        · intro c hc
          obtain ⟨hin, hne⟩ := splitDot_mem xs l
            (by rw [h]; exact List.mem_cons_of_mem hd hl') c hc
          exact ⟨List.mem_cons_of_mem a hin, hne⟩

theorem suffix_split {s a b : List Char} (h : s <:+ a ++ b) :
    s <:+ b ∨ ∃ s₁, s₁ ≠ [] ∧ s = s₁ ++ b ∧ s₁ <:+ a := by
  obtain ⟨t, ht⟩ := h
  rcases List.append_eq_append_iff.mp ht with ⟨a', ha, hs⟩ | ⟨c', _, hb⟩
  · by_cases hn : a' = []
    · subst hn
      left
      rw [hs, List.nil_append]
    · right
      exact ⟨a', hn, hs, ⟨t, ha.symm⟩⟩
  · left
    exact ⟨c', hb.symm⟩

theorem pages_suffix_iff (proto host : List Char) :
    (".pages.dev".toList <:+ proto ++ ':' :: '/' :: '/' :: host) ↔
      ".pages.dev".toList <:+ host := by
  constructor
  · intro h
    have h' : ".pages.dev".toList <:+ (proto ++ [':', '/', '/']) ++ host := by
      rwa [List.append_assoc]
    rcases suffix_split h' with h'' | ⟨s₁, hne, hs, hsuf⟩
    · exact h''
    · exfalso
      have hlast : s₁.getLast? = some '/' := by
        obtain ⟨t, ht⟩ := hsuf
        have h1 := List.getLast?_append_of_ne_nil t hne
        rw [ht, List.getLast?_append_of_ne_nil proto
          (by simp : ([':', '/', '/'] : List Char) ≠ [])] at h1
        exact h1.symm
      have hmem : '/' ∈ s₁ := getLast?_mem_of_eq hlast
      have hpre : s₁ <+: ".pages.dev".toList := ⟨host, hs.symm⟩
      have : '/' ∈ ".pages.dev".toList := hpre.subset hmem
      simp at this
  · intro h
    refine h.trans ?_
    have := List.suffix_append (proto ++ [':', '/', '/']) host
    rwa [List.append_assoc] at this

theorem normalizePagesUrl_eq (proto host : List Char) (hp : ':' ∉ proto)
    (hh : ':' ∉ host) :
    normalizePagesUrl (proto ++ ':' :: '/' :: '/' :: host) =
      some (proto ++ ':' :: '/' :: '/' ::
        joinDot (sliceLastThree (splitDot host))) := by
  rw [normalizePagesUrl, findSep_sep hp]
  show some (proto ++ [':', '/', '/'] ++ joinDot (sliceLastThree (splitDot
    (match findSep host with | none => host | some p => p.1)))) = _
  rw [findSep_no_colon hh]
  simp

theorem splitDot_append_pages (y : List Char) :
    splitDot (y ++ ".pages.dev".toList) =
      splitDot y ++ ["pages".toList, "dev".toList] := by
  have h1 : (".pages.dev".toList : List Char) =
      '.' :: ("pages".toList ++ '.' :: "dev".toList) := by decide
  rw [h1, splitDot_append_dot y, splitDot_append_dot,
    splitDot_no_dot "pages".toList (by decide),
    splitDot_no_dot "dev".toList (by decide)]
  rfl

theorem joinDot_slice3_pages (y : List Char) :
    ∃ x, (splitDot y).getLast? = some x ∧
      joinDot (sliceLastThree (splitDot (y ++ ".pages.dev".toList))) =
        x ++ ".pages.dev".toList := by
  have hne := splitDot_ne_nil y
  rcases List.eq_nil_or_concat (splitDot y) with h | ⟨init, x, hinit⟩
  · exact absurd h hne
  rw [List.concat_eq_append] at hinit
  refine ⟨x, ?_, ?_⟩
  · rw [hinit, List.getLast?_append_of_ne_nil init (by simp)]
    rfl
  · rw [sliceLastThree, splitDot_append_pages, hinit]
    have he : init ++ [x] ++ ["pages".toList, "dev".toList] =
        init ++ [x, "pages".toList, "dev".toList] := by simp
    rw [he]
    have hl : (init ++ [x, "pages".toList, "dev".toList]).length - 3 =
        init.length := by simp
    rw [hl, drop_left_len init _ rfl]
    show x ++ '.' :: ("pages".toList ++ '.' :: "dev".toList) =
      x ++ ".pages.dev".toList
    rw [show ('.' :: ("pages".toList ++ '.' :: "dev".toList) : List Char) =
      ".pages.dev".toList from by decide]

theorem normalizeUrl_pages_eq (proto host : List Char) (hp : ':' ∉ proto)
    (hh : ':' ∉ host) (hsuf : ".pages.dev".toList <:+ host) :
    normalizeUrl (proto ++ ':' :: '/' :: '/' :: host) =
      some (proto ++ ':' :: '/' :: '/' ::
        joinDot (sliceLastThree (splitDot host))) := by
  have hg : ".pages.dev".toList.isSuffixOf
      (proto ++ ':' :: '/' :: '/' :: host) = true :=
    List.isSuffixOf_iff_suffix.mpr ((pages_suffix_iff proto host).mpr hsuf)
  rw [normalizeUrl, if_pos hg]
  exact normalizePagesUrl_eq proto host hp hh

theorem normalizeUrl_other_eq (proto host : List Char)
    (hsuf : ¬ ".pages.dev".toList <:+ host) :
    normalizeUrl (proto ++ ':' :: '/' :: '/' :: host) =
      some (proto ++ ':' :: '/' :: '/' :: host) := by
  have hg : ¬ ".pages.dev".toList.isSuffixOf
      (proto ++ ':' :: '/' :: '/' :: host) = true := by
    intro h
    exact hsuf ((pages_suffix_iff proto host).mp
      (List.isSuffixOf_iff_suffix.mp h))
  rw [normalizeUrl, if_neg hg]

/-- Claim C6: when the host ends in `.pages.dev`, normalization keeps only
the last three dot-separated host labels; URLs on all other domains are
left unmodified; and the step is idempotent — normalizing the result again
yields the same URL. -/
theorem claim_C6 (proto host : List Char) (hp : ':' ∉ proto)
    (hh : ':' ∉ host) :
    (".pages.dev".toList <:+ host →
      normalizeUrl (proto ++ ':' :: '/' :: '/' :: host) =
        some (proto ++ ':' :: '/' :: '/' ::
          joinDot (sliceLastThree (splitDot host)))) ∧
    (¬ ".pages.dev".toList <:+ host →
      normalizeUrl (proto ++ ':' :: '/' :: '/' :: host) =
        some (proto ++ ':' :: '/' :: '/' :: host)) ∧
    (∀ u, normalizeUrl (proto ++ ':' :: '/' :: '/' :: host) = some u →
      normalizeUrl u = some u) := by
  refine ⟨normalizeUrl_pages_eq proto host hp hh,
    normalizeUrl_other_eq proto host, ?_⟩
  intro u hu
  by_cases hsuf : ".pages.dev".toList <:+ host
  · rw [normalizeUrl_pages_eq proto host hp hh hsuf] at hu
    obtain ⟨y, hy⟩ := hsuf
    obtain ⟨x, hx, hjoin⟩ := joinDot_slice3_pages y
    have hxmem : x ∈ splitDot y := getLast?_mem_of_eq hx
    have hxchars : ∀ c ∈ x, c ∈ y ∧ c ≠ '.' := splitDot_mem y x hxmem
    have hxcolon : ':' ∉ x := by
      intro hc
      refine hh ?_
      rw [← hy]
      exact List.mem_append_left _ (hxchars ':' hc).1
    have hh3 : ':' ∉ x ++ ".pages.dev".toList := by
      intro hc
      rcases List.mem_append.mp hc with hcx | hcp
      · exact hxcolon hcx
      · exact absurd hcp (by decide)
    rw [← hy, hjoin] at hu
    obtain rfl : u = proto ++ ':' :: '/' :: '/' ::
        (x ++ ".pages.dev".toList) := (Option.some.inj hu).symm
    rw [normalizeUrl_pages_eq proto _ hp hh3 (List.suffix_append _ _)]
    obtain ⟨x', hx', hjoin'⟩ := joinDot_slice3_pages x
    obtain rfl : x' = x := by
      rw [splitDot_no_dot x (fun c hc => (hxchars c hc).2)] at hx'
      simpa using hx'.symm
    rw [hjoin']
  · rw [normalizeUrl_other_eq proto host hsuf] at hu
    obtain rfl : u = proto ++ ':' :: '/' :: '/' :: host :=
      (Option.some.inj hu).symm
    exact normalizeUrl_other_eq proto host hsuf

theorem claim_C6_witness :
    normalizeUrl "https://abc123.myproj.pages.dev".toList =
      some "https://myproj.pages.dev".toList ∧
    normalizeUrl "https://myproj.pages.dev".toList =
      some "https://myproj.pages.dev".toList := by
  have h := claim_C6 "https".toList "abc123.myproj.pages.dev".toList
    (by decide) (by decide)
  have h1 := h.1 (by decide)
  have h2 := h.2.2 _ h1
  have e1 : "https".toList ++ ':' :: '/' :: '/' ::
      "abc123.myproj.pages.dev".toList =
      "https://abc123.myproj.pages.dev".toList := by decide
  have e2 : joinDot (sliceLastThree
      (splitDot "abc123.myproj.pages.dev".toList)) =
      "myproj.pages.dev".toList := by decide
  rw [e2] at h1 h2
  have e3 : "https".toList ++ ':' :: '/' :: '/' ::
      "myproj.pages.dev".toList = "https://myproj.pages.dev".toList := by
    decide
  rw [e3] at h1 h2
  rw [e1] at h1
  exact ⟨h1, h2⟩
